import Mathlib

/-!
# Shallow embedding of the personal-notes-manager frontend logic

This file embeds the note-collection management logic of
`src/notes_frontend/src/App.js` in Lean 4 and proves the specification
claims about it.

Modelling conventions:
* A JS note object `{id, title, content, updated}` is the structure `Note`;
  `updated` (milliseconds since epoch) is a `Nat`.
* The collection kept in the React `notes` state is a `List Note` in
  storage order (head = index 0 of the JS array).
* `Date.now()` and the random part of `generateId` are external inputs to
  the handlers, so they appear as explicit parameters (`now`, `newId`).
* `Array.prototype.sort` with comparator `(a, b) => b.updated - a.updated`
  is a stable sort placing larger `updated` first; it is modelled by
  `List.insertionSort` with the relation `b.updated ≤ a.updated`, which is
  stable with the same tie-breaking (original order kept for equal keys).
* `String.prototype.includes` is modelled by `hasSub` on character lists,
  and `String.prototype.toLowerCase` by `jsToLower`, the character-wise
  ASCII lowering `Char.toLower` over the string's characters.
-/

/-- A note record: `{ id, title, content, updated }` from App.js. -/
structure Note where
  id : String
  title : String
  content : String
  updated : Nat
deriving Repr, DecidableEq

/-- The editable fields passed to `handleEditNote` by `NoteEditor`
(`onEdit(note.id, "title", v)` / `onEdit(note.id, "content", v)`). -/
inductive NoteField where
  | title
  | content
deriving Repr, DecidableEq

/-- Spread update `{ ...n, [field]: value }` — overwrite one named field of a note. -/
def setField (n : Note) (f : NoteField) (v : String) : Note :=
  match f with
  | .title => { n with title := v }
  | .content => { n with content := v }

/-- Does `pat` occur at the head of `l`? (helper for substring search) -/
def subAt : List Char → List Char → Bool
  | [], _ => true
  | _ :: _, [] => false
  | p :: ps, c :: cs => p = c && subAt ps cs

/-- Does `l` contain `pat` as a contiguous run? Models
`String.prototype.includes` on the underlying character lists. -/
def hasSub (pat : List Char) : List Char → Bool
  | [] => subAt pat []
  | c :: cs => subAt pat (c :: cs) || hasSub pat cs

/-- JS `s.includes(pat)` for strings. -/
def strIncludes (s pat : String) : Bool :=
  hasSub pat.data s.data

/-- The comparator `(a, b) => b.updated - a.updated`: `a` may come before
`b` exactly when `b.updated ≤ a.updated` (descending by `updated`). -/
def updatedDesc (a b : Note) : Prop :=
  b.updated ≤ a.updated

instance : DecidableRel updatedDesc := fun a b =>
  inferInstanceAs (Decidable (b.updated ≤ a.updated))

instance : IsTotal Note updatedDesc :=
  ⟨fun a b => Nat.le_total b.updated a.updated⟩

instance : IsTrans Note updatedDesc :=
  ⟨fun _ _ _ h1 h2 => Nat.le_trans h2 h1⟩

/-- JS `notes.slice().sort((a, b) => b.updated - a.updated)`: stable sort,
descending by `updated`. -/
def sortByUpdatedDesc (l : List Note) : List Note :=
  l.insertionSort updatedDesc

/-- JS `String.prototype.toLowerCase`, modelled character-wise with
`Char.toLower` (ASCII case folding). -/
def jsToLower (s : String) : String :=
  ⟨s.data.map Char.toLower⟩

/-- The predicate of the `filter` callback in `getFilteredNotes`:
`n.title.toLowerCase().includes(q) || n.content.toLowerCase().includes(q)`
(`q` is already lower-cased by the caller). -/
def matchesQuery (q : String) (n : Note) : Bool :=
  strIncludes (jsToLower n.title) q || strIncludes (jsToLower n.content) q

/-- Function `getFilteredNotes()` from App.js (lines 76–86): with an empty query,
a sorted copy of all notes; otherwise the notes matching the lower-cased
query in title or content, sorted. -/
def getFilteredNotes (notes : List Note) (query : String) : List Note :=
  if query = "" then sortByUpdatedDesc notes
  else sortByUpdatedDesc (notes.filter (matchesQuery (jsToLower query)))

/-- Handler `handleAddNote()` from App.js (lines 89–101). `newId` stands for the
`generateId()` result and `created` for `Date.now()`. Returns the new
`notes` state (`[note, ...notes]`) and the new `selectedId` (`newId`). -/
def handleAddNote (notes : List Note) (newId : String) (created : Nat) :
    List Note × String :=
  (⟨newId, "Untitled Note", "", created⟩ :: notes, newId)

/-- Handler `handleEditNote(id, field, value)` from App.js (lines 104–110):
`curr.map(n => n.id === id ? { ...n, [field]: value, updated: Date.now() } : n)`. -/
def handleEditNote (notes : List Note) (id : String) (f : NoteField)
    (value : String) (now : Nat) : List Note :=
  notes.map fun n =>
    if n.id = id then { setField n f value with updated := now } else n

/-- JS `notes.findIndex(n => n.id === id)`: the index of the note with the
given id, or −1 when absent. -/
def jsFindIndex (notes : List Note) (id : String) : Int :=
  match notes.findIdx? (fun n => n.id = id) with
  | some i => (i : Int)
  | none => -1

/-- Handler `handleDeleteNote(id)` from App.js (lines 113–127), after the user
confirmed. `findIndex` yields −1 when `id` is absent, hence the `Int`
index. Returns the new `notes` state and the new `selectedId`.
The `Option.map` on the array reads is harmless: in every branch that is
reached the index is in bounds (see `delete_selects_neighbor`). -/
def handleDeleteNote (notes : List Note) (id : String) :
    List Note × Option String :=
  let idx : Int := jsFindIndex notes id
  let nextSelected : Option String :=
    if 1 < notes.length then
      if idx = (notes.length : Int) - 1 then
        (notes.get? (idx - 1).toNat).map Note.id
      else
        (notes.get? (idx + 1).toNat).map Note.id
    else none
  (notes.filter (fun n => n.id ≠ id), nextSelected)

/-- The selection-fallback effect of App.js (lines 64–73): when the
selected id is missing from the filtered view, select its first note, or
nothing when the view is empty. `ids.includes(selectedId)` is false for
`null`, so a `null` selection also falls back to the first note. -/
def selectionFallback (notes : List Note) (query : String)
    (selectedId : Option String) : Option String :=
  let ids := (getFilteredNotes notes query).map Note.id
  if ids = [] then none
  else if (match selectedId with
           | some s => ids.contains s
           | none => false) then selectedId
  else ids.head?

/-- One user operation on the collection, for reasoning about operation
sequences (`add` carries the generated id and the clock value). -/
inductive Op where
  | add (newId : String) (now : Nat)
  | edit (id : String) (f : NoteField) (value : String) (now : Nat)
  | del (id : String)
deriving Repr, DecidableEq

/-- Apply one operation to the stored collection. -/
def applyOp (notes : List Note) : Op → List Note
  | .add i t => (handleAddNote notes i t).1
  | .edit i f v t => handleEditNote notes i f v t
  | .del i => (handleDeleteNote notes i).1

/-- Run a sequence of operations from the empty collection. -/
def runOps (ops : List Op) : List Note :=
  ops.foldl applyOp []

/-- The ids handed to `add` operations, in creation order. -/
def addedIds : List Op → List String
  | [] => []
  | .add i _ :: rest => i :: addedIds rest
  | .edit _ _ _ _ :: rest => addedIds rest
  | .del _ :: rest => addedIds rest

/-! ## Persistence

`useEffect` (App.js lines 50–52) stores
`JSON.stringify(notes)` under the single key `"notes:v1"`, and the
`useState` initializer (lines 30–35) reads that entry back with
`JSON.parse`. We model the serialized text concretely: `persistNotes`
produces exactly the characters `JSON.stringify` produces for an array of
`{id, title, content, updated}` records (string escaping per ECMA-404 /
`QuoteJSONString`, decimal integers, no added whitespace, object keys in
insertion order), and `loadNotes` parses that fragment of JSON back the
way `JSON.parse` does. -/

/-- Lower-case hexadecimal digit for `n < 16`. -/
def hexDigit (n : Nat) : Char :=
  if n < 10 then Char.ofNat (48 + n) else Char.ofNat (87 + n)

/-- The `QuoteJSONString` escaping of one character: `\"`, `\\`, the named
control escapes `\b \t \n \f \r`, `\u00xx` for the other control
characters, and every other character verbatim. -/
def escChar (c : Char) : List Char :=
  if c = '"' then ['\\', '"']
  else if c = '\\' then ['\\', '\\']
  else if c.toNat = 8 then ['\\', 'b']
  else if c.toNat = 9 then ['\\', 't']
  else if c.toNat = 10 then ['\\', 'n']
  else if c.toNat = 12 then ['\\', 'f']
  else if c.toNat = 13 then ['\\', 'r']
  else if c.toNat < 32 then
    ['\\', 'u', '0', '0', hexDigit (c.toNat / 16), hexDigit (c.toNat % 16)]
  else [c]

/-- A JSON string literal: quote, escaped characters, quote. -/
def quoteStr (s : String) : List Char :=
  '"' :: (s.data.map escChar).flatten ++ ['"']

/-- Decimal digits of a natural number (`Number::toString(10)`). -/
def natChars (n : Nat) : List Char :=
  if h : n < 10 then [Char.ofNat (48 + n)]
  else natChars (n / 10) ++ [Char.ofNat (48 + n % 10)]
decreasing_by exact Nat.div_lt_self (by omega) (by omega)

/-- Serialization by `JSON.stringify` of one note object (keys in insertion order). -/
def stringifyNote (n : Note) : List Char :=
  "\x7b\"id\":".data ++ quoteStr n.id ++
  ",\"title\":".data ++ quoteStr n.title ++
  ",\"content\":".data ++ quoteStr n.content ++
  ",\"updated\":".data ++ natChars n.updated ++ "\x7d".data

/-- Comma-separated concatenation of serialized array elements. -/
def sepJoin : List (List Char) → List Char
  | [] => []
  | [x] => x
  | x :: y :: rest => x ++ ',' :: sepJoin (y :: rest)

/-- Serialized `JSON.stringify(notes)`: the single persisted key-value entry. -/
def persistNotes (notes : List Note) : String :=
  ⟨'[' :: sepJoin (notes.map stringifyNote) ++ [']']⟩

/-- Numeric value of a hexadecimal digit character. -/
def hexVal (c : Char) : Option Nat :=
  if 48 ≤ c.toNat ∧ c.toNat ≤ 57 then some (c.toNat - 48)
  else if 97 ≤ c.toNat ∧ c.toNat ≤ 102 then some (c.toNat - 87)
  else if 65 ≤ c.toNat ∧ c.toNat ≤ 70 then some (c.toNat - 55)
  else none

/-- Parse the body of a JSON string literal (the opening quote already
consumed): unescape until the closing quote, returning the decoded
characters and the remaining input. -/
def parseStrBody : List Char → Option (List Char × List Char)
  | [] => none
  | c :: cs =>
    if c = '"' then some ([], cs)
    else if c = '\\' then
      match cs with
      | [] => none
      | e :: cs2 =>
        if e = '"' then (parseStrBody cs2).map fun p => ('"' :: p.1, p.2)
        else if e = '\\' then (parseStrBody cs2).map fun p => ('\\' :: p.1, p.2)
        else if e = 'b' then (parseStrBody cs2).map fun p => (Char.ofNat 8 :: p.1, p.2)
        else if e = 't' then (parseStrBody cs2).map fun p => (Char.ofNat 9 :: p.1, p.2)
        else if e = 'n' then (parseStrBody cs2).map fun p => (Char.ofNat 10 :: p.1, p.2)
        else if e = 'f' then (parseStrBody cs2).map fun p => (Char.ofNat 12 :: p.1, p.2)
        else if e = 'r' then (parseStrBody cs2).map fun p => (Char.ofNat 13 :: p.1, p.2)
        else if e = 'u' then
          match cs2 with
          | h1 :: h2 :: h3 :: h4 :: cs3 =>
            match hexVal h1, hexVal h2, hexVal h3, hexVal h4 with
            | some a, some b, some c3, some d =>
              (parseStrBody cs3).map fun p =>
                (Char.ofNat (((a * 16 + b) * 16 + c3) * 16 + d) :: p.1, p.2)
            | _, _, _, _ => none
          | _ => none
        else none
    else (parseStrBody cs).map fun p => (c :: p.1, p.2)

/-- Parse a complete JSON string literal, opening quote included. -/
def parseQuoted : List Char → Option (List Char × List Char)
  | '"' :: cs => parseStrBody cs
  | _ => none

/-- Is `c` a decimal digit? -/
def isDig (c : Char) : Bool :=
  48 ≤ c.toNat && c.toNat ≤ 57

/-- Parse a decimal natural number (maximal run of digits). -/
def parseNat (l : List Char) : Option (Nat × List Char) :=
  let ds := l.takeWhile isDig
  if ds = [] then none
  else some (ds.foldl (fun a c => 10 * a + (c.toNat - 48)) 0, l.dropWhile isDig)

/-- Consume an expected literal run of characters. -/
def stripLit : List Char → List Char → Option (List Char)
  | [], l => some l
  | _ :: _, [] => none
  | p :: ps, c :: cs => if p = c then stripLit ps cs else none

/-- Parse one serialized note object. -/
def parseNote (l : List Char) : Option (Note × List Char) := do
  let l ← stripLit "\x7b\"id\":".data l
  let (idv, l) ← parseQuoted l
  let l ← stripLit ",\"title\":".data l
  let (tv, l) ← parseQuoted l
  let l ← stripLit ",\"content\":".data l
  let (cv, l) ← parseQuoted l
  let l ← stripLit ",\"updated\":".data l
  let (uv, l) ← parseNat l
  let l ← stripLit "\x7d".data l
  pure (⟨⟨idv⟩, ⟨tv⟩, ⟨cv⟩, uv⟩, l)

/-- Parse the comma-separated elements of a non-empty array, up to and
including the closing bracket. `fuel` bounds the number of elements. -/
def parseElems (fuel : Nat) (l : List Char) : Option (List Note × List Char) :=
  match fuel with
  | 0 => none
  | fuel + 1 =>
    match parseNote l with
    | none => none
    | some (n, rest) =>
      match rest with
      | ']' :: rest2 => some ([n], rest2)
      | ',' :: rest2 =>
        match parseElems fuel rest2 with
        | some (ns, rest3) => some (n :: ns, rest3)
        | none => none
      | _ => none

/-- Parsing as `JSON.parse` on the fragment of JSON that `persistNotes` emits:
a complete array of note objects and nothing else. -/
def loadNotes (s : String) : Option (List Note) :=
  match s.data with
  | '[' :: rest =>
    if rest = [']'] then some []
    else
      match parseElems (rest.length + 1) rest with
      | some (ns, []) => some ns
      | _ => none
  | _ => none

/-- The `localStorage` state restricted to the key `"notes:v1"`: the persist effect
overwrites the entry with the serialized collection. -/
def storageAfterPersist (notes : List Note) : Option String :=
  some (persistNotes notes)

/-- The `useState` initializer (App.js lines 30–35):
`const saved = localStorage.getItem("notes:v1"); if (saved) return
JSON.parse(saved); return [];` — a missing or empty (falsy) entry yields
the empty collection. -/
def loadFromStorage (storage : Option String) : Option (List Note) :=
  match storage with
  | some s => if s = "" then some [] else loadNotes s
  | none => some []

/-! ## Helper lemmas -/

theorem subAt_iff (pat l : List Char) :
    subAt pat l = true ↔ ∃ suf, l = pat ++ suf := by
  induction pat generalizing l with
  | nil => simp [subAt]
  | cons p ps ih =>
    cases l with
    | nil => simp [subAt]
    | cons c cs =>
      simp only [subAt, Bool.and_eq_true, decide_eq_true_eq, ih]
      constructor
      · rintro ⟨rfl, suf, rfl⟩; exact ⟨suf, rfl⟩
      · rintro ⟨suf, h⟩
        cases h
        exact ⟨rfl, suf, rfl⟩

theorem hasSub_iff (pat l : List Char) :
    hasSub pat l = true ↔ ∃ pre suf, l = pre ++ pat ++ suf := by
  induction l with
  | nil =>
    simp only [hasSub, subAt_iff]
    constructor
    · rintro ⟨suf, h⟩; exact ⟨[], suf, h⟩
    · rintro ⟨pre, suf, h⟩
      rw [List.append_assoc] at h
      cases List.append_eq_nil.mp h.symm with
      | intro h1 h2 => exact ⟨suf, by simp [h1] at h ⊢; tauto⟩
  | cons c cs ih =>
    simp only [hasSub, Bool.or_eq_true, subAt_iff, ih]
    constructor
    · rintro (⟨suf, h⟩ | ⟨pre, suf, h⟩)
      · exact ⟨[], suf, by simpa using h⟩
      · exact ⟨c :: pre, suf, by simp [h]⟩
    · rintro ⟨pre, suf, h⟩
      cases pre with
      | nil => exact Or.inl ⟨suf, by simpa using h⟩
      | cons p ps =>
        simp only [List.cons_append, List.cons.injEq] at h
        exact Or.inr ⟨ps, suf, h.2⟩

theorem setField_id (n : Note) (f : NoteField) (v : String) :
    (setField n f v).id = n.id := by
  cases f <;> rfl

/-! ## Claims -/

/-- C10: every newly created note is initialized with title
"Untitled Note", empty content, and `updated` equal to its creation
time; the rest of the resulting collection is exactly the previous
collection, so no field of the new note is copied or derived from any
existing note (the head is the same constant record for every
collection). -/
theorem addNote_initial_fields (notes : List Note) (newId : String) (created : Nat) :
    (handleAddNote notes newId created).1.head? =
      some ⟨newId, "Untitled Note", "", created⟩ ∧
    (handleAddNote notes newId created).1.tail = notes :=
  ⟨rfl, rfl⟩

/-- C6: filtering with the empty query returns a permutation of the whole
collection (same multiset), sorted in descending order of `updated`. -/
theorem filter_empty_query_sorted (notes : List Note) :
    List.Perm (getFilteredNotes notes "") notes ∧
    List.Pairwise (fun a b : Note => b.updated ≤ a.updated)
      (getFilteredNotes notes "") := by
  constructor
  · simpa [getFilteredNotes, sortByUpdatedDesc] using
      List.perm_insertionSort updatedDesc notes
  · have h := List.sorted_insertionSort updatedDesc notes
    simpa [getFilteredNotes, sortByUpdatedDesc, List.Sorted, updatedDesc] using h

/-- C2: whenever the filtered view is empty the selection becomes none;
whenever the selected id is present in the filtered view it is left
unchanged; whenever it is absent (including a `null` selection) the
selection falls back to the id of the first note of the filtered view. -/
theorem selection_fallback_cases (notes : List Note) (query : String)
    (sel : Option String) :
    ((getFilteredNotes notes query).map Note.id = [] →
      selectionFallback notes query sel = none) ∧
    (∀ s, sel = some s → s ∈ (getFilteredNotes notes query).map Note.id →
      selectionFallback notes query sel = sel) ∧
    ((getFilteredNotes notes query).map Note.id ≠ [] →
      (∀ s, sel = some s → s ∉ (getFilteredNotes notes query).map Note.id) →
      selectionFallback notes query sel =
        ((getFilteredNotes notes query).map Note.id).head?) := by
  refine ⟨?_, ?_, ?_⟩
  · intro h
    simp [selectionFallback, h]
  · intro s hs hmem
    subst hs
    have hne : (getFilteredNotes notes query).map Note.id ≠ [] := by
      intro h; rw [h] at hmem; exact (List.not_mem_nil s) hmem
    simp [selectionFallback, hne, hmem]
  · intro hne habs
    cases sel with
    | none => simp [selectionFallback, hne]
    | some s =>
      have : s ∉ (getFilteredNotes notes query).map Note.id := habs s rfl
      simp [selectionFallback, hne, this]

/-- Witness for C2: with one note of id "a" and a stale selection "zz",
the selection falls back to the first (only) filtered note. -/
theorem selection_fallback_cases_witness :
    selectionFallback [⟨"a", "t", "c", 5⟩] "" (some "zz") = some "a" := by
  have h := (selection_fallback_cases [⟨"a", "t", "c", 5⟩] "" (some "zz")).2.2
    (by decide) (by intro s hs hmem; cases hs; revert hmem; decide)
  rw [h]; decide

/-- Positional frame property of `handleEditNote`, shared by C8 and C3:
each position keeps its id; an unmatched note is untouched; the matched
note gets `updated := now` and only the named field replaced. -/
theorem handleEditNote_forall2 (notes : List Note) (id : String)
    (f : NoteField) (v : String) (now : Nat) :
    List.Forall₂ (fun n n' : Note =>
      n'.id = n.id ∧
      (n.id ≠ id → n' = n) ∧
      (n.id = id → n'.updated = now ∧
        (f = NoteField.title → n'.title = v ∧ n'.content = n.content) ∧
        (f = NoteField.content → n'.content = v ∧ n'.title = n.title)))
      notes (handleEditNote notes id f v now) := by
  induction notes with
  | nil => simp [handleEditNote]
  | cons n ns ih =>
    simp only [handleEditNote, List.map_cons] at ih ⊢
    refine List.Forall₂.cons ?_ ih
    by_cases h : n.id = id
    · cases f <;> simp [h, setField]
    · simp [h]

/-- C8: the update operation is a partial patch — positionally, every
note keeps its id; a note whose id differs from the edited id is entirely
unchanged; the note with the edited id gets `updated := now` and only the
named field replaced, the other text field kept. -/
theorem edit_partial_patch (notes : List Note) (id : String)
    (f : NoteField) (v : String) (now : Nat) :
    List.Forall₂ (fun n n' : Note =>
      n'.id = n.id ∧
      (n.id ≠ id → n' = n) ∧
      (n.id = id → n'.updated = now ∧
        (f = NoteField.title → n'.title = v ∧ n'.content = n.content) ∧
        (f = NoteField.content → n'.content = v ∧ n'.title = n.title)))
      notes (handleEditNote notes id f v now) :=
  handleEditNote_forall2 notes id f v now

/-- Witness for C8 at a concrete two-note collection: the title edit of
"a" at clock 9 patches only that note's title and timestamp. -/
theorem edit_partial_patch_witness :
    List.Forall₂ (fun n n' : Note =>
      n'.id = n.id ∧
      (n.id ≠ "a" → n' = n) ∧
      (n.id = "a" → n'.updated = 9 ∧
        (NoteField.title = NoteField.title → n'.title = "x" ∧ n'.content = n.content) ∧
        (NoteField.title = NoteField.content → n'.content = "x" ∧ n'.title = n.title)))
      [⟨"a", "t", "c", 5⟩, ⟨"b", "u", "d", 7⟩]
      (handleEditNote [⟨"a", "t", "c", 5⟩, ⟨"b", "u", "d", 7⟩] "a"
        NoteField.title "x" 9) :=
  edit_partial_patch [⟨"a", "t", "c", 5⟩, ⟨"b", "u", "d", 7⟩] "a"
    NoteField.title "x" 9

/-- C3 counterexample: `handleEditNote` stamps `updated` with the current
clock value `Date.now()`. When an edit happens in the same millisecond as
the previous update (clock value 5, previous `updated` 5), the new
`updated` equals the old one and is not strictly later, so the claim as
stated fails. -/
theorem edit_same_clock_counterexample :
    handleEditNote [⟨"a", "t", "c", 5⟩] "a" NoteField.title "x" 5 =
      [⟨"a", "x", "c", 5⟩] ∧
    ¬ ((⟨"a", "t", "c", 5⟩ : Note).updated < (⟨"a", "x", "c", 5⟩ : Note).updated) := by
  refine ⟨by decide, by decide⟩

/-- C3 (amended): editing the title or content of the note at position
`i` leaves its id unchanged and sets `updated` to the clock value `now`;
this is strictly later than the previous `updated` whenever the clock
has strictly advanced past it. -/
theorem edit_refreshes_updated (notes : List Note) (id : String)
    (f : NoteField) (v : String) (now : Nat) (i : Nat) (n : Note)
    (hget : notes[i]? = some n) (hid : n.id = id)
    (hclock : n.updated < now) :
    ∃ n', (handleEditNote notes id f v now)[i]? = some n' ∧
      n'.id = n.id ∧ n'.updated = now ∧ n.updated < n'.updated := by
  refine ⟨{ setField n f v with updated := now }, ?_, ?_, rfl, hclock⟩
  · simp [handleEditNote, List.getElem?_map, hget, hid]
  · simpa using setField_id n f v

/-- Witness for C3 (amended): editing note "a" (previous `updated` 5) at
clock 6 yields `updated` 6, strictly later than 5. -/
theorem edit_refreshes_updated_witness :
    ∃ n', (handleEditNote [⟨"a", "t", "c", 5⟩] "a" NoteField.title "x" 6)[0]? =
        some n' ∧
      n'.id = (⟨"a", "t", "c", 5⟩ : Note).id ∧ n'.updated = 6 ∧
      (⟨"a", "t", "c", 5⟩ : Note).updated < n'.updated :=
  edit_refreshes_updated [⟨"a", "t", "c", 5⟩] "a" NoteField.title "x" 6 0
    ⟨"a", "t", "c", 5⟩ (by decide) (by decide) (by decide)

/-- C5: for a non-empty query, a note is in the filtered view exactly
when it is in the collection and its lower-cased title or content
contains the lower-cased query as a contiguous substring — soundness and
completeness of the search. -/
theorem filtered_view_matches (notes : List Note) (query : String)
    (hq : query ≠ "") (n : Note) :
    n ∈ getFilteredNotes notes query ↔
      n ∈ notes ∧
        ((∃ pre suf,
            (jsToLower n.title).data = pre ++ (jsToLower query).data ++ suf) ∨
         (∃ pre suf,
            (jsToLower n.content).data = pre ++ (jsToLower query).data ++ suf)) := by
  unfold getFilteredNotes
  rw [if_neg hq, sortByUpdatedDesc, List.mem_insertionSort, List.mem_filter]
  simp only [matchesQuery, strIncludes, Bool.or_eq_true, hasSub_iff]

/-- Witness for C5: the note titled "Beta" is in the view for query
"bET" because "beta" contains "bet". -/
theorem filtered_view_matches_witness :
    (⟨"a", "Beta", "", 9⟩ : Note) ∈ getFilteredNotes [⟨"a", "Beta", "", 9⟩] "bET" :=
  (filtered_view_matches [⟨"a", "Beta", "", 9⟩] "bET" (by decide)
      ⟨"a", "Beta", "", 9⟩).mpr
    ⟨by decide, Or.inl ⟨[], ['a'], by decide⟩⟩

/-- C1: deleting the note whose id is selected (present in a collection
with unique ids) clears the selection and empties the collection when it
was the only note; otherwise it selects a neighboring note of the deleted
one — the previous note when the deleted one was last, the next note
otherwise — and that neighbor remains in the collection. -/
theorem delete_selects_neighbor (notes : List Note) (id : String)
    (hnd : (notes.map Note.id).Nodup) (hmem : id ∈ notes.map Note.id) :
    (notes.length = 1 → handleDeleteNote notes id = ([], none)) ∧
    (1 < notes.length →
      ∃ i nb, notes.findIdx? (fun n => n.id = id) = some i ∧
        ((i = notes.length - 1 ∧ notes[i - 1]? = some nb) ∨
         (i < notes.length - 1 ∧ notes[i + 1]? = some nb)) ∧
        nb.id ≠ id ∧
        (handleDeleteNote notes id).2 = some nb.id ∧
        nb ∈ (handleDeleteNote notes id).1) := by
  obtain ⟨x, hx, hxid⟩ := List.mem_map.mp hmem
  have hex : ∃ n, n ∈ notes ∧ (fun n : Note => decide (n.id = id)) n := by
    exact ⟨x, hx, by simp [hxid]⟩
  have hfind : notes.findIdx? (fun n => decide (n.id = id)) =
      some (notes.findIdx (fun n => decide (n.id = id))) :=
    List.findIdx?_eq_some_of_exists hex
  set i := notes.findIdx (fun n => decide (n.id = id)) with hidef
  obtain ⟨hi, hpi, hmin⟩ := List.findIdx?_eq_some_iff_getElem.mp hfind
  have hpid : notes[i].id = id := by simpa using hpi
  constructor
  · intro hlen1
    obtain ⟨a, rfl⟩ := List.length_eq_one.mp hlen1
    have hxa : x = a := by simpa using hx
    subst hxa
    simp [handleDeleteNote, hxid]
  · intro hlen
    by_cases hcase : i = notes.length - 1
    · have h1i : 1 ≤ i := by omega
      have him : i - 1 < notes.length := by omega
      refine ⟨i, notes[i - 1], hfind, Or.inl ⟨hcase, by simp⟩, ?_, ?_, ?_⟩
      · have := hmin (i - 1) (by omega)
        simpa using this
      · have hne : notes[i - 1].id ≠ id := by
          have := hmin (i - 1) (by omega)
          simpa using this
        simp only [handleDeleteNote, jsFindIndex, hfind]
        rw [if_pos hlen, if_pos (by omega : (i : Int) = (notes.length : Int) - 1)]
        have ht : ((i : Int) - 1).toNat = i - 1 := by omega
        rw [ht]
        simp [him]
      · have hne : notes[i - 1].id ≠ id := by
          have := hmin (i - 1) (by omega)
          simpa using this
        simp only [handleDeleteNote]
        exact List.mem_filter.mpr ⟨List.getElem_mem him, by simpa using hne⟩
    · have hlt : i < notes.length - 1 := by omega
      have him : i + 1 < notes.length := by omega
      have hne : notes[i + 1].id ≠ id := by
        intro heq
        have hlm : i < (notes.map Note.id).length := by simpa using hi
        have hlm1 : i + 1 < (notes.map Note.id).length := by simpa using him
        have hinj :=
          (@List.Nodup.getElem_inj_iff _ (notes.map Note.id) hnd i hlm
            (i + 1) hlm1).mp
        have : i = i + 1 := by
          apply hinj
          simp [hpid, heq]
        omega
      refine ⟨i, notes[i + 1], hfind, Or.inr ⟨hlt, by simp⟩, hne, ?_, ?_⟩
      · simp only [handleDeleteNote, jsFindIndex, hfind]
        rw [if_pos hlen, if_neg (by omega : ¬ (i : Int) = (notes.length : Int) - 1)]
        have ht : ((i : Int) + 1).toNat = i + 1 := by omega
        rw [ht]
        simp [him]
      · simp only [handleDeleteNote]
        exact List.mem_filter.mpr ⟨List.getElem_mem him, by simpa using hne⟩

/-- Witness for C1: deleting "a" from a two-note collection selects its
neighbor "b", which remains in the collection. -/
theorem delete_selects_neighbor_witness :
    (handleDeleteNote [(⟨"a", "t", "c", 5⟩ : Note), ⟨"b", "u", "d", 9⟩] "a").2 =
      some "b" ∧
    (⟨"b", "u", "d", 9⟩ : Note) ∈
      (handleDeleteNote [(⟨"a", "t", "c", 5⟩ : Note), ⟨"b", "u", "d", 9⟩] "a").1 := by
  have h := (delete_selects_neighbor [⟨"a", "t", "c", 5⟩, ⟨"b", "u", "d", 9⟩] "a"
    (by decide) (by decide)).2 (by decide)
  obtain ⟨i, nb, hfind, hnbpos, hnbid, hsel, hmem⟩ := h
  have hi0 : i = 0 := by
    have h0 : List.findIdx? (fun n : Note => decide (n.id = "a"))
        [⟨"a", "t", "c", 5⟩, ⟨"b", "u", "d", 9⟩] = some 0 := by decide
    have h1 := h0.symm.trans hfind
    exact (Option.some.inj h1).symm
  subst hi0
  rcases hnbpos with ⟨h1, _⟩ | ⟨_, h2⟩
  · exact absurd h1 (by decide)
  · have hnb : nb = ⟨"b", "u", "d", 9⟩ := by
      have hv : ([(⟨"a", "t", "c", 5⟩ : Note), ⟨"b", "u", "d", 9⟩][0 + 1]?) =
          some ⟨"b", "u", "d", 9⟩ := by decide
      exact (Option.some.inj (hv.symm.trans h2)).symm
    subst hnb
    exact ⟨hsel, hmem⟩

/-- C7 counterexample: `handleAddNote` prepends (`[note, ...notes]`).
After creating "a" and then "b", the stored order is `["b", "a"]`: the
newly created note appears before — not after — all previously created
notes, so storage order is not insertion order. -/
theorem storage_order_counterexample :
    (runOps [Op.add "a" 1, Op.add "b" 2]).map Note.id = ["b", "a"] := by
  decide

/-- Editing never changes the sequence of ids (`handleEditNote` maps ids to themselves). -/
theorem handleEditNote_map_id (notes : List Note) (id : String)
    (f : NoteField) (v : String) (now : Nat) :
    (handleEditNote notes id f v now).map Note.id = notes.map Note.id := by
  unfold handleEditNote
  rw [List.map_map]
  apply List.map_congr_left
  intro n _
  by_cases h : n.id = id
  · simp [h, setField_id]
  · simp [h]

/-- Generalized invariant for C7: running operations from a collection
whose ids form a subsequence of `acc` keeps the ids a subsequence of the
reversed creation order prepended to `acc`. -/
theorem runOps_sublist_aux (ops : List Op) :
    ∀ (start : List Note) (acc : List String),
      List.Sublist (start.map Note.id) acc →
      List.Sublist ((ops.foldl applyOp start).map Note.id)
        ((addedIds ops).reverse ++ acc) := by
  induction ops with
  | nil =>
    intro start acc h
    simpa [addedIds] using h
  | cons op rest ih =>
    intro start acc h
    cases op with
    | add i t =>
      have hstep : List.Sublist (((handleAddNote start i t).1).map Note.id) (i :: acc) := by
        simpa [handleAddNote] using List.Sublist.cons₂ i h
      have h2 := ih _ (i :: acc) hstep
      simpa [addedIds, List.append_assoc] using h2
    | edit i f v t =>
      have hstep : List.Sublist ((handleEditNote start i f v t).map Note.id) acc := by
        rw [handleEditNote_map_id]; exact h
      have h2 := ih _ acc hstep
      simpa [addedIds] using h2
    | del i =>
      have hstep : List.Sublist (((handleDeleteNote start i).1).map Note.id) acc := by
        refine List.Sublist.trans ?_ h
        exact List.Sublist.map Note.id (List.filter_sublist start)
      have h2 := ih _ acc hstep
      simpa [addedIds] using h2

/-- C7 (amended): creation prepends, so the stored collection order is
reverse insertion order — each newly created note appears before all
previously created notes, and after any sequence of operations the
stored ids form a subsequence of the reversed creation sequence. -/
theorem storage_order_reverse_insertion :
    (∀ (notes : List Note) (i : String) (t : Nat),
        applyOp notes (Op.add i t) = ⟨i, "Untitled Note", "", t⟩ :: notes) ∧
    ∀ ops : List Op,
      List.Sublist ((runOps ops).map Note.id) (addedIds ops).reverse := by
  constructor
  · intro notes i t; rfl
  · intro ops
    simpa using runOps_sublist_aux ops [] [] (by simp)

/-- C4 counterexample: `generateId` is built from `Math.random()` and
`Date.now()`, so nothing in the code rules out that it returns a string
already used as an id (for example when the random part repeats within
the same millisecond). With an existing note of id "note_aaaaaaaaa_1"
and the generated id equal to it, the new collection holds two notes
with the same id — the claimed distinctness fails. -/
theorem add_colliding_id_counterexample :
    ((handleAddNote [⟨"note_aaaaaaaaa_1", "t", "c", 3⟩]
        "note_aaaaaaaaa_1" 5).1).map Note.id =
      ["note_aaaaaaaaa_1", "note_aaaaaaaaa_1"] ∧
    ¬ (((handleAddNote [⟨"note_aaaaaaaaa_1", "t", "c", 3⟩]
        "note_aaaaaaaaa_1" 5).1).map Note.id).Nodup := by
  refine ⟨by decide, by decide⟩

/-- C4 (amended): provided the generated id is not already present in the
collection (which `generateId` makes overwhelmingly likely but cannot
guarantee), creating a note makes it the active selection, installs it
with exactly the fresh id, keeps its id distinct from every existing
note's id, and preserves uniqueness of ids across the collection. -/
theorem add_fresh_id_unique_selected (notes : List Note) (newId : String)
    (created : Nat) (hfresh : newId ∉ notes.map Note.id) :
    (handleAddNote notes newId created).2 = newId ∧
    (handleAddNote notes newId created).1.head? =
      some ⟨newId, "Untitled Note", "", created⟩ ∧
    (∀ n ∈ notes, (⟨newId, "Untitled Note", "", created⟩ : Note).id ≠ n.id) ∧
    ((notes.map Note.id).Nodup →
      (((handleAddNote notes newId created).1).map Note.id).Nodup) := by
  refine ⟨rfl, rfl, ?_, ?_⟩
  · intro n hn heq
    exact hfresh (List.mem_map.mpr ⟨n, hn, heq.symm⟩)
  · intro hnd
    refine List.Nodup.cons ?_ hnd
    simpa [handleAddNote] using hfresh

/-- Witness for C4 (amended): adding a fresh id "note_b..." to a
collection holding "note_a..." selects it and keeps ids unique. -/
theorem add_fresh_id_unique_selected_witness :
    (handleAddNote [⟨"note_aaaaaaaaa_1", "t", "c", 3⟩] "note_bbbbbbbbb_2" 5).2 =
      "note_bbbbbbbbb_2" ∧
    (handleAddNote [⟨"note_aaaaaaaaa_1", "t", "c", 3⟩] "note_bbbbbbbbb_2" 5).1.head? =
      some ⟨"note_bbbbbbbbb_2", "Untitled Note", "", 5⟩ ∧
    (∀ n ∈ [(⟨"note_aaaaaaaaa_1", "t", "c", 3⟩ : Note)],
      (⟨"note_bbbbbbbbb_2", "Untitled Note", "", 5⟩ : Note).id ≠ n.id) ∧
    (([(⟨"note_aaaaaaaaa_1", "t", "c", 3⟩ : Note)].map Note.id).Nodup →
      (((handleAddNote [⟨"note_aaaaaaaaa_1", "t", "c", 3⟩]
          "note_bbbbbbbbb_2" 5).1).map Note.id).Nodup) :=
  add_fresh_id_unique_selected [⟨"note_aaaaaaaaa_1", "t", "c", 3⟩]
    "note_bbbbbbbbb_2" 5 (by decide)

/-! ## Round-trip lemmas for the persisted JSON text -/

theorem stripLit_append (pre l : List Char) :
    stripLit pre (pre ++ l) = some l := by
  induction pre with
  | nil => rfl
  | cons p ps ih => simp [stripLit, ih]

theorem hexVal_hexDigit (m : Nat) (h : m < 16) :
    hexVal (hexDigit m) = some m := by
  interval_cases m <;> decide

theorem parseStrBody_esc (cs : List Char) (rest : List Char) :
    parseStrBody ((cs.map escChar).flatten ++ '"' :: rest) = some (cs, rest) := by
  induction cs with
  | nil =>
    show parseStrBody ('"' :: rest) = some ([], rest)
    rw [parseStrBody.eq_def]
    simp
  | cons c cs ih =>
    simp only [List.map_cons, List.flatten_cons, List.append_assoc]
    by_cases h1 : c = '"'
    · subst h1
      have he : escChar '"' = ['\\', '"'] := by decide
      rw [he]
      simp only [List.cons_append, List.nil_append]
      rw [parseStrBody.eq_def]
      simp [ih]
    · by_cases h2 : c = '\\'
      · subst h2
        have he : escChar '\\' = ['\\', '\\'] := by decide
        rw [he]
        simp only [List.cons_append, List.nil_append]
        rw [parseStrBody.eq_def]
        simp [ih]
      · by_cases h3 : c.toNat = 8
        · have he : escChar c = ['\\', 'b'] := by simp [escChar, h1, h2, h3]
          have hc : Char.ofNat 8 = c := by rw [← h3, Char.ofNat_toNat]
          rw [he]
          simp only [List.cons_append, List.nil_append]
          rw [parseStrBody.eq_def]
          simp [ih]
          exact hc
        · by_cases h4 : c.toNat = 9
          · have he : escChar c = ['\\', 't'] := by simp [escChar, h1, h2, h3, h4]
            have hc : Char.ofNat 9 = c := by rw [← h4, Char.ofNat_toNat]
            rw [he]
            simp only [List.cons_append, List.nil_append]
            rw [parseStrBody.eq_def]
            simp [ih]
            exact hc
          · by_cases h5 : c.toNat = 10
            · have he : escChar c = ['\\', 'n'] := by
                simp [escChar, h1, h2, h3, h4, h5]
              have hc : Char.ofNat 10 = c := by rw [← h5, Char.ofNat_toNat]
              rw [he]
              simp only [List.cons_append, List.nil_append]
              rw [parseStrBody.eq_def]
              simp [ih]
              exact hc
            · by_cases h6 : c.toNat = 12
              · have he : escChar c = ['\\', 'f'] := by
                  simp [escChar, h1, h2, h3, h4, h5, h6]
                have hc : Char.ofNat 12 = c := by rw [← h6, Char.ofNat_toNat]
                rw [he]
                simp only [List.cons_append, List.nil_append]
                rw [parseStrBody.eq_def]
                simp [ih]
                exact hc
              · by_cases h7 : c.toNat = 13
                · have he : escChar c = ['\\', 'r'] := by
                    simp [escChar, h1, h2, h3, h4, h5, h6, h7]
                  have hc : Char.ofNat 13 = c := by rw [← h7, Char.ofNat_toNat]
                  rw [he]
                  simp only [List.cons_append, List.nil_append]
                  rw [parseStrBody.eq_def]
                  simp [ih]
                  exact hc
                · by_cases h8 : c.toNat < 32
                  · have he : escChar c = ['\\', 'u', '0', '0',
                        hexDigit (c.toNat / 16), hexDigit (c.toNat % 16)] := by
                      simp [escChar, h1, h2, h3, h4, h5, h6, h7, h8]
                    have hhi : c.toNat / 16 < 16 := by omega
                    have hlo : c.toNat % 16 < 16 := by omega
                    have h0 : hexVal '0' = some 0 := by decide
                    have hc : Char.ofNat
                        (((0 * 16 + 0) * 16 + c.toNat / 16) * 16 + c.toNat % 16)
                          = c := by
                      have harith : ((0 * 16 + 0) * 16 + c.toNat / 16) * 16 +
                          c.toNat % 16 = c.toNat := by omega
                      rw [harith, Char.ofNat_toNat]
                    rw [he]
                    simp only [List.cons_append, List.nil_append]
                    rw [parseStrBody.eq_def]
                    simp [h0, hexVal_hexDigit _ hhi, hexVal_hexDigit _ hlo, ih]
                    have harith2 : c.toNat / 16 * 16 + c.toNat % 16 = c.toNat := by
                      omega
                    rw [harith2, Char.ofNat_toNat]
                  · have he : escChar c = [c] := by
                      simp [escChar, h1, h2, h3, h4, h5, h6, h7, h8]
                    rw [he]
                    simp only [List.cons_append, List.nil_append]
                    rw [parseStrBody.eq_def]
                    simp [h1, h2, ih]

theorem parseQuoted_quoteStr (s : String) (rest : List Char) :
    parseQuoted (quoteStr s ++ rest) = some (s.data, rest) := by
  show parseQuoted (('"' :: ((s.data.map escChar).flatten ++ ['"'])) ++ rest) = _
  rw [List.cons_append, List.append_assoc, List.singleton_append]
  show parseQuoted ('"' :: ((s.data.map escChar).flatten ++ '"' :: rest)) = _
  rw [parseQuoted.eq_def]
  exact parseStrBody_esc s.data rest

theorem digit_toNat (d : Nat) (h : d < 10) :
    (Char.ofNat (48 + d)).toNat = 48 + d := by
  interval_cases d <;> decide

theorem digit_isDig (d : Nat) (h : d < 10) :
    isDig (Char.ofNat (48 + d)) = true := by
  interval_cases d <;> decide

theorem natChars_ne_nil (n : Nat) : natChars n ≠ [] := by
  rw [natChars.eq_def]
  split
  · simp
  · simp

theorem natChars_all_digits (n : Nat) : ∀ c ∈ natChars n, isDig c = true := by
  induction n using Nat.strong_induction_on with
  | _ n ih =>
    rw [natChars.eq_def]
    split
    · rename_i h
      intro c hc
      rw [List.mem_singleton] at hc
      subst hc
      exact digit_isDig n h
    · rename_i h
      intro c hc
      rcases List.mem_append.mp hc with h1 | h2
      · exact ih (n / 10) (Nat.div_lt_self (by omega) (by omega)) c h1
      · rw [List.mem_singleton] at h2
        subst h2
        exact digit_isDig (n % 10) (Nat.mod_lt n (by omega))

theorem natChars_foldl (n : Nat) : ∀ acc : Nat,
    (natChars n).foldl (fun a c => 10 * a + (c.toNat - 48)) acc =
      acc * 10 ^ (natChars n).length + n := by
  induction n using Nat.strong_induction_on with
  | _ n ih =>
    intro acc
    rw [natChars.eq_def]
    split
    · rename_i h
      simp [digit_toNat n h]
      omega
    · rename_i h
      rw [List.foldl_append, List.foldl_cons, List.foldl_nil,
        ih (n / 10) (Nat.div_lt_self (by omega) (by omega)) acc,
        digit_toNat (n % 10) (Nat.mod_lt n (by omega))]
      rw [List.length_append, List.length_singleton, pow_succ]
      have : 10 * (acc * 10 ^ (natChars (n / 10)).length + n / 10) +
          (48 + n % 10 - 48) =
          acc * (10 ^ (natChars (n / 10)).length * 10) + (10 * (n / 10) + n % 10) := by
        ring_nf
        omega
      rw [this, Nat.div_add_mod]

theorem takeWhile_append_all {α : Type} (p : α → Bool) (xs ys : List α)
    (h : ∀ c ∈ xs, p c = true) :
    (xs ++ ys).takeWhile p = xs ++ ys.takeWhile p := by
  induction xs with
  | nil => simp
  | cons x xs ih =>
    have hx : p x = true := h x (List.mem_cons_self x xs)
    simp only [List.cons_append, List.takeWhile_cons, hx, if_true]
    rw [ih (fun c hc => h c (List.mem_cons_of_mem x hc))]

theorem dropWhile_append_all {α : Type} (p : α → Bool) (xs ys : List α)
    (h : ∀ c ∈ xs, p c = true) :
    (xs ++ ys).dropWhile p = ys.dropWhile p := by
  induction xs with
  | nil => simp
  | cons x xs ih =>
    have hx : p x = true := h x (List.mem_cons_self x xs)
    simp only [List.cons_append, List.dropWhile_cons, hx, if_true]
    exact ih (fun c hc => h c (List.mem_cons_of_mem x hc))

theorem parseNat_natChars_brace (n : Nat) (rest : List Char) :
    parseNat (natChars n ++ '}' :: rest) = some (n, '}' :: rest) := by
  have hbrace : isDig '}' = false := by decide
  have htake : (natChars n ++ '}' :: rest).takeWhile isDig = natChars n := by
    rw [takeWhile_append_all isDig _ _ (natChars_all_digits n)]
    simp [List.takeWhile_cons, hbrace]
  have hdrop : (natChars n ++ '}' :: rest).dropWhile isDig = '}' :: rest := by
    rw [dropWhile_append_all isDig _ _ (natChars_all_digits n)]
    simp [List.dropWhile_cons, hbrace]
  rw [parseNat.eq_def]
  simp only [htake, hdrop]
  rw [if_neg (natChars_ne_nil n)]
  have hfold := natChars_foldl n 0
  simp only [Nat.zero_mul, Nat.zero_add] at hfold
  rw [hfold]

theorem parseNote_stringifyNote (n : Note) (rest : List Char) :
    parseNote (stringifyNote n ++ rest) = some (n, rest) := by
  have hb : "\x7d".data = ['}'] := rfl
  have hassoc : stringifyNote n ++ rest =
      "\x7b\"id\":".data ++ (quoteStr n.id ++ (",\"title\":".data ++
        (quoteStr n.title ++ (",\"content\":".data ++ (quoteStr n.content ++
          (",\"updated\":".data ++ (natChars n.updated ++ ('}' :: rest)))))))) := by
    simp only [stringifyNote, hb, List.append_assoc, List.singleton_append]
  rw [hassoc]
  simp only [parseNote, stripLit_append, parseQuoted_quoteStr,
    parseNat_natChars_brace, Option.bind_eq_bind, Option.some_bind]
  simp [stripLit]

theorem parseElems_sepJoin (ns : List Note) : ∀ (n : Note) (fuel : Nat)
    (rest : List Char), ns.length < fuel →
    parseElems fuel (sepJoin ((n :: ns).map stringifyNote) ++ ']' :: rest) =
      some (n :: ns, rest) := by
  induction ns with
  | nil =>
    intro n fuel rest hf
    cases fuel with
    | zero => omega
    | succ f =>
      have hsep : sepJoin ([n].map stringifyNote) = stringifyNote n := rfl
      rw [hsep, parseElems.eq_def]
      simp only [parseNote_stringifyNote n (']' :: rest)]
  | cons m ms ih =>
    intro n fuel rest hf
    cases fuel with
    | zero => simp at hf
    | succ f =>
      have hsep : sepJoin ((n :: m :: ms).map stringifyNote) =
          stringifyNote n ++ ',' :: sepJoin ((m :: ms).map stringifyNote) := rfl
      rw [hsep, List.append_assoc, List.cons_append, parseElems.eq_def]
      simp only [parseNote_stringifyNote n]
      have hms : ms.length < f := by simpa using Nat.lt_of_succ_lt_succ hf
      rw [ih m f rest hms]

theorem stringifyNote_len (n : Note) : 1 ≤ (stringifyNote n).length := by
  have h6 : ("\x7b\"id\":".data).length = 6 := rfl
  simp [stringifyNote, List.length_append, h6]

theorem sepJoin_len (n : Note) (ns : List Note) :
    (n :: ns).length ≤ (sepJoin ((n :: ns).map stringifyNote)).length := by
  induction ns generalizing n with
  | nil => simpa [sepJoin] using stringifyNote_len n
  | cons m ms ih =>
    have h1 := stringifyNote_len n
    have h2 := ih m
    have hsep : sepJoin ((n :: m :: ms).map stringifyNote) =
        stringifyNote n ++ ',' :: sepJoin ((m :: ms).map stringifyNote) := rfl
    rw [hsep]
    simp only [List.length_cons, List.length_append] at h2 ⊢
    omega

/-- C9: persisting the collection (serializing it to the single
`"notes:v1"` entry as `JSON.stringify` does) and reloading it (parsing
that entry as `JSON.parse` does) yields the identical list of notes —
every id, title, content and updated timestamp survives the round trip. -/
theorem persist_reload_roundtrip (notes : List Note) :
    loadFromStorage (storageAfterPersist notes) = some notes := by
  cases notes with
  | nil =>
    have hpe : persistNotes [] = "[]" := rfl
    show loadFromStorage (some (persistNotes [])) = some []
    rw [hpe]
    decide
  | cons n ns =>
    have hdata : (persistNotes (n :: ns)).data =
        '[' :: (sepJoin ((n :: ns).map stringifyNote) ++ [']']) := rfl
    have hslen := sepJoin_len n ns
    have hne : persistNotes (n :: ns) ≠ "" := by
      intro h
      have h2 := congrArg String.data h
      rw [hdata] at h2
      simp at h2
    have hrne : sepJoin ((n :: ns).map stringifyNote) ++ [']'] ≠ [']'] := by
      intro h
      have hlen := congrArg List.length h
      simp only [List.length_append, List.length_singleton, List.length_cons] at hlen hslen
      omega
    have hfuel : ns.length <
        (sepJoin ((n :: ns).map stringifyNote) ++ [']']).length + 1 := by
      simp only [List.length_append, List.length_singleton, List.length_cons] at hslen ⊢
      omega
    have hparse := parseElems_sepJoin ns n
      ((sepJoin ((n :: ns).map stringifyNote) ++ [']']).length + 1) [] hfuel
    show loadFromStorage (some (persistNotes (n :: ns))) = some (n :: ns)
    simp only [loadFromStorage, if_neg hne, loadNotes, hdata, hrne, if_neg hrne]
    rw [show sepJoin ((n :: ns).map stringifyNote) ++ [']'] =
      sepJoin ((n :: ns).map stringifyNote) ++ ']' :: [] from rfl] at hparse ⊢
    rw [hparse]
    simp
